import Mathlib

/-!
Shallow embedding of `src/kube-rs/src/runtime/reflector.rs`.

The Rust reflector keeps a `State { data : BTreeMap<ObjectId, K>, version : String }`
behind a mutex and mutates it through `poll` (watch events) and `reset` (full list).
We embed the pure content: the cache is an association list with `BTreeMap`
lookup/insert/remove semantics, network calls are passed in as explicit
`Except`-valued results, and `poll`/`reset` become state-transforming functions.
-/

set_option autoImplicit false

/-- `ObjectId` represents an object by name and namespace (if any);
field order (`name` first, then `namespace`) matches the Rust struct
declaration, which determines the derived total order. -/
structure ObjectId where
  name : String
  «namespace» : Option String
  deriving DecidableEq, Repr

/-- `impl ToString for ObjectId`: `"name [ns]"` when a namespace is present,
else just the name. -/
def ObjectId.to_string (i : ObjectId) : String :=
  match i.«namespace» with
  | some ns => i.name ++ " [" ++ ns ++ "]"
  | none => i.name

/-- Rust's derived `Ord` on `Option`: `None` sorts before `Some`, and two
`Some`s compare by value (same as Lean core's `instOrdOption`). -/
def cmpOption {α : Type} (cmp : α → α → Ordering) : Option α → Option α → Ordering
  | none, none => Ordering.eq
  | none, some _ => Ordering.lt
  | some _, none => Ordering.gt
  | some x, some y => cmp x y

/-- The `#[derive(Ord)]` total order on `ObjectId`: lexicographic over the
fields in declaration order, i.e. `name` first and then `namespace`. -/
def ObjectId.cmp (a b : ObjectId) : Ordering :=
  (compare a.name b.name).then (cmpOption compare a.«namespace» b.«namespace»)

/-- Modelled from the spec (section 3, "Object Identity"): the order the spec
claims the cache uses — "comparing namespace-presence then name then namespace
value". Stated only to be compared against `ObjectId.cmp`, the order the code
actually derives. -/
def specClaimedCmp (a b : ObjectId) : Ordering :=
  (compare a.«namespace».isSome b.«namespace».isSome).then
    ((compare a.name b.name).then (cmpOption compare a.«namespace» b.«namespace»))

/-- The `Meta` trait: the three introspection capabilities the reflector
needs from the stored object type `K`. -/
structure Meta (K : Type) where
  name : K → String
  «namespace» : K → Option String
  resource_ver : K → Option String

/-- `ObjectId::key_for`: extract the identity of an object. -/
def ObjectId.key_for {K : Type} (m : Meta K) (o : K) : ObjectId :=
  { name := m.name o, «namespace» := m.«namespace» o }

/-- The reflector's internal map, `BTreeMap<ObjectId, K>`, embedded as an
association list; all mutation goes through the operations below, which give
it `BTreeMap`'s one-binding-per-key behaviour. -/
abbrev Cache (K : Type) := List (ObjectId × K)

/-- `BTreeMap::get`: the value bound to a key, if any. -/
def Cache.get? {K : Type} : Cache K → ObjectId → Option K
  | [], _ => none
  | (k, v) :: rest, i => if k = i then some v else Cache.get? rest i

/-- `BTreeMap::insert`: bind `i` to `v`, overwriting an existing binding. -/
def Cache.insert {K : Type} : Cache K → ObjectId → K → Cache K
  | [], i, v => [(i, v)]
  | (k, w) :: rest, i, v =>
    if k = i then (k, v) :: rest else (k, w) :: Cache.insert rest i v

/-- `BTreeMap::remove`: drop the binding for `i`, if any. -/
def Cache.remove {K : Type} : Cache K → ObjectId → Cache K
  | [], _ => []
  | (k, w) :: rest, i => if k = i then rest else (k, w) :: Cache.remove rest i

/-- `data.entry(k).or_insert_with(|| o.clone())`: insert only if absent. -/
def Cache.or_insert {K : Type} (c : Cache K) (i : ObjectId) (v : K) : Cache K :=
  match Cache.get? c i with
  | some _ => c
  | none => Cache.insert c i v

/-- `data.entry(k).and_modify(|e| *e = o.clone())`: overwrite only if present. -/
def Cache.and_modify {K : Type} (c : Cache K) (i : ObjectId) (v : K) : Cache K :=
  match Cache.get? c i with
  | some _ => Cache.insert c i v
  | none => c

/-- The API error payload carried by `WatchEvent::Error`. -/
structure ErrorResponse where
  message : String
  deriving DecidableEq, Repr

/-- The library error type, restricted to what the reflector produces:
`Error::Api` wraps an explicit error event; `Transport` stands for any
error value produced by the list/watch collaborator itself. -/
inductive Error where
  | Api (e : ErrorResponse)
  | Transport (msg : String)
  deriving DecidableEq, Repr

/-- `WatchEvent<K>` from the watch stream. -/
inductive WatchEvent (K : Type) where
  | Added (o : K)
  | Modified (o : K)
  | Deleted (o : K)
  | Bookmark (o : K)
  | Error (e : ErrorResponse)
  deriving DecidableEq, Repr

/-- The reflector's shared `State<K>`. -/
structure State (K : Type) where
  data : Cache K
  version : String
  deriving DecidableEq, Repr

/-- `impl Default for State`: empty data and `version = 0.to_string()`. -/
def State.default {K : Type} : State K :=
  { data := [], version := toString 0 }

/-- The version marker an event carries: the first `match &ev` block of
`Reflector::poll` reads `Meta::resource_ver` out of `Added`, `Modified`,
`Deleted` and `Bookmark` events, and nothing out of the rest. -/
def eventVersion {K : Type} (m : Meta K) : Except Error (WatchEvent K) → Option String
  | Except.ok (WatchEvent.Added o) => m.resource_ver o
  | Except.ok (WatchEvent.Modified o) => m.resource_ver o
  | Except.ok (WatchEvent.Deleted o) => m.resource_ver o
  | Except.ok (WatchEvent.Bookmark o) => m.resource_ver o
  | _ => none

/-- Version tracking step of the poll loop: adopt the event's marker when it
carries one, else leave the stored version alone. -/
def applyVersion {K : Type} (m : Meta K) (st : State K) (ev : Except Error (WatchEvent K)) :
    State K :=
  match eventVersion m ev with
  | some nv => { st with version := nv }
  | none => st

/-- One iteration of the `for ev in events` loop of `Reflector::poll`:
version tracking first, then the core reflector logic on `data`; the
`Option Error` is `some` exactly when the loop body would `return Err`. -/
def applyEvent {K : Type} (m : Meta K) (st : State K) (ev : Except Error (WatchEvent K)) :
    State K × Option Error :=
  let st1 := applyVersion m st ev
  match ev with
  | Except.ok (WatchEvent.Added o) =>
    ({ st1 with data := Cache.or_insert st1.data (ObjectId.key_for m o) o }, none)
  | Except.ok (WatchEvent.Modified o) =>
    ({ st1 with data := Cache.and_modify st1.data (ObjectId.key_for m o) o }, none)
  | Except.ok (WatchEvent.Deleted o) =>
    ({ st1 with data := Cache.remove st1.data (ObjectId.key_for m o) }, none)
  | Except.ok (WatchEvent.Bookmark _) => (st1, none)
  | Except.ok (WatchEvent.Error e) => (st1, some (Error.Api e))
  | Except.error e => (st1, some e)

/-- The event loop of `Reflector::poll`: apply events in order, stopping at
the first failing one. -/
def pollEvents {K : Type} (m : Meta K) :
    State K → List (Except Error (WatchEvent K)) → State K × Option Error
  | st, [] => (st, none)
  | st, ev :: rest =>
    match applyEvent m st ev with
    | (st1, none) => pollEvents m st1 rest
    | (st1, some e) => (st1, some e)

/-- `Reflector::poll`, with the result of the `api.watch` call passed in
explicitly: a failed watch call propagates immediately (`?`), otherwise the
events are applied in order. -/
def poll {K : Type} (m : Meta K) (st : State K)
    (watchResult : Except Error (List (Except Error (WatchEvent K)))) :
    State K × Option Error :=
  match watchResult with
  | Except.error e => (st, some e)
  | Except.ok events => pollEvents m st events

/-- The stored versions after each applied event of a poll run (the trace of
`state.version` values the loop commits). -/
def pollTrace {K : Type} (m : Meta K) :
    State K → List (Except Error (WatchEvent K)) → List String
  | _, [] => []
  | st, ev :: rest =>
    match applyEvent m st ev with
    | (st1, none) => st1.version :: pollTrace m st1 rest
    | (st1, some _) => [st1.version]

/-- The error a single event produces, if any: an explicit `Error` event
becomes `Error::Api`, a transport error propagates as is. -/
def eventError {K : Type} : Except Error (WatchEvent K) → Option Error
  | Except.ok (WatchEvent.Error e) => some (Error.Api e)
  | Except.error e => some e
  | _ => none

/-- `ListMeta`: the snapshot metadata the reflector reads. -/
structure ListMeta where
  resource_version : Option String
  deriving DecidableEq, Repr

/-- `ObjectList<K>`: the result of a successful `api.list` call. -/
structure ObjectList (K : Type) where
  metadata : ListMeta
  items : List K
  deriving DecidableEq, Repr

/-- The indexing loop of `get_full_resource_entries`:
`for i in res.items { data.insert(ObjectId::key_for(&i), i) }` starting from
an empty map. -/
def buildCache {K : Type} (m : Meta K) (items : List K) : Cache K :=
  items.foldl (fun d i => Cache.insert d (ObjectId.key_for m i) i) []

/-- `Reflector::get_full_resource_entries`, with the `api.list` result passed
in explicitly: on success, index every item by its identity and take
`res.metadata.resource_version.unwrap_or_default()` (the `String` default,
i.e. `""`) as the version. -/
def get_full_resource_entries {K : Type} (m : Meta K)
    (listResult : Except Error (ObjectList K)) : Except Error (Cache K × String) :=
  match listResult with
  | Except.error e => Except.error e
  | Except.ok res =>
    Except.ok (buildCache m res.items, res.metadata.resource_version.getD "")

/-- `Reflector::reset`: on success replace the whole state with the freshly
built one; on failure (`?`) propagate and leave the state alone. -/
def reset {K : Type} (m : Meta K) (st : State K)
    (listResult : Except Error (ObjectList K)) : State K × Option Error :=
  match get_full_resource_entries m listResult with
  | Except.ok (data, version) => ({ data := data, version := version }, none)
  | Except.error e => (st, some e)

/-- `Reflector::state`: all current values. -/
def Reflector.state {K : Type} (st : State K) : List K :=
  st.data.map Prod.snd

/-- `Reflector::get`: look up by name under the reflector's configured
namespace (`self.api.resource.namespace`, `none` for cluster scope). -/
def Reflector.get {K : Type} (resource_namespace : Option String) (st : State K)
    (name : String) : Option K :=
  Cache.get? st.data { name := name, «namespace» := resource_namespace }

/-- `Reflector::get_within`: look up by name with an explicit namespace. -/
def Reflector.get_within {K : Type} (st : State K) (name ns : String) : Option K :=
  Cache.get? st.data { name := name, «namespace» := some ns }

/-- The value of the last item of the snapshot carrying a given identity, if
any (later items override earlier ones): the reference point for the
overwrite behaviour of `buildCache`. -/
def lastMatch {K : Type} (m : Meta K) (k : ObjectId) : List K → Option K
  | [] => none
  | i :: rest =>
    (lastMatch m k rest).or (if ObjectId.key_for m i = k then some i else none)

/-- A concrete object type realizing the `Meta` capabilities, used to
instantiate the generic theorems on concrete inputs. -/
structure Obj where
  name : String
  ns : Option String
  rv : Option String
  payload : Nat
  deriving DecidableEq, Repr

/-- The `Meta` implementation for `Obj`. -/
def objMeta : Meta Obj :=
  { name := Obj.name, «namespace» := Obj.ns, resource_ver := Obj.rv }

/-- A one-entry cache holding the cluster-scoped object `a` with payload 1,
used by the concrete witnesses. -/
def cacheA : Cache Obj := [(⟨"a", none⟩, ⟨"a", none, none, 1⟩)]

/-- A state wrapping `cacheA` at a given version. -/
def stA (v : String) : State Obj := { data := cacheA, version := v }

/-! Helper lemmas about the cache operations and the poll loop. -/

theorem applyVersion_data {K : Type} (m : Meta K) (st : State K)
    (ev : Except Error (WatchEvent K)) : (applyVersion m st ev).data = st.data := by
  cases h : eventVersion m ev <;> simp [applyVersion, h]

theorem applyVersion_version {K : Type} (m : Meta K) (st : State K)
    (ev : Except Error (WatchEvent K)) :
    (applyVersion m st ev).version = (eventVersion m ev).getD st.version := by
  cases h : eventVersion m ev <;> simp [applyVersion, h]

theorem applyEvent_fst_version {K : Type} (m : Meta K) (st : State K)
    (ev : Except Error (WatchEvent K)) :
    ((applyEvent m st ev).1).version = (applyVersion m st ev).version := by
  cases ev with
  | error e => rfl
  | ok w => cases w <;> rfl

theorem applyEvent_version {K : Type} (m : Meta K) (st : State K)
    (ev : Except Error (WatchEvent K)) :
    ((applyEvent m st ev).1).version = (eventVersion m ev).getD st.version := by
  rw [applyEvent_fst_version, applyVersion_version]

theorem Cache.get?_insert {K : Type} (c : Cache K) (i : ObjectId) (v : K) (j : ObjectId) :
    Cache.get? (Cache.insert c i v) j = if i = j then some v else Cache.get? c j := by
  induction c with
  | nil => by_cases h : i = j <;> simp [Cache.insert, Cache.get?, h]
  | cons p rest ih =>
    obtain ⟨k, w⟩ := p
    by_cases hk : k = i
    · subst hk
      by_cases hj : k = j <;> simp [Cache.insert, Cache.get?, hj]
    · by_cases hj : k = j
      · have hij : ¬ i = j := fun hh => hk (hj.trans hh.symm)
        have hji : ¬ j = i := fun hh => hij hh.symm
        simp [Cache.insert, Cache.get?, hk, hj, hij, hji]
      · simp [Cache.insert, Cache.get?, hk, hj, ih]

theorem Cache.remove_absent {K : Type} (c : Cache K) (i : ObjectId)
    (h : Cache.get? c i = none) : Cache.remove c i = c := by
  induction c with
  | nil => rfl
  | cons p rest ih =>
    obtain ⟨k, w⟩ := p
    by_cases hk : k = i
    · simp [Cache.get?, hk] at h
    · simp [Cache.get?, hk] at h
      simp [Cache.remove, hk, ih h]

theorem Cache.get?_none_of_namespaces_none {K : Type} (c : Cache K) (i : ObjectId)
    (hall : ∀ p ∈ c, (Prod.fst p).«namespace» = none) (hi : i.«namespace».isSome) :
    Cache.get? c i = none := by
  induction c with
  | nil => rfl
  | cons p rest ih =>
    obtain ⟨k, w⟩ := p
    have hk : k.«namespace» = none := hall (k, w) (List.mem_cons_self _ _)
    have hne : k ≠ i := by
      intro h
      rw [h] at hk
      rw [hk] at hi
      simp at hi
    simp [Cache.get?, hne]
    exact ih (fun p hp => hall p (List.mem_cons_of_mem _ hp))

/-- C7: if the list request made by `reset` fails, the failure is propagated
and the prior state — both data and version — is returned untouched. -/
theorem reset_failure_preserves_state {K : Type} (m : Meta K) (st : State K) (e : Error) :
    reset m st (Except.error e) = (st, some e) := rfl

/-- C3: applying an `Added` event for a key already present in the cache
leaves the data map unchanged — in particular the entry keeps its first
value — and the event applies successfully. -/
theorem added_duplicate_no_overwrite {K : Type} (m : Meta K) (st : State K) (o v : K)
    (h : Cache.get? st.data (ObjectId.key_for m o) = some v) :
    (applyEvent m st (Except.ok (WatchEvent.Added o))).1.data = st.data
    ∧ Cache.get? ((applyEvent m st (Except.ok (WatchEvent.Added o))).1.data)
        (ObjectId.key_for m o) = some v
    ∧ (applyEvent m st (Except.ok (WatchEvent.Added o))).2 = none := by
  have hd : (applyVersion m st (Except.ok (WatchEvent.Added o))).data = st.data :=
    applyVersion_data m st _
  refine ⟨?_, ?_, rfl⟩ <;> simp [applyEvent, Cache.or_insert, hd, h]

/-- C3 witness: a cache holding `a` with payload `1`; a duplicate `Added`
with payload `2` leaves the stored payload at `1`. -/
theorem added_duplicate_witness :
    Cache.get? (stA "0").data (ObjectId.key_for objMeta (⟨"a", none, some "5", 2⟩ : Obj))
      = some (⟨"a", none, none, 1⟩ : Obj)
    ∧ Cache.get?
        ((applyEvent objMeta (stA "0")
          (Except.ok (WatchEvent.Added (⟨"a", none, some "5", 2⟩ : Obj)))).1.data)
        (ObjectId.key_for objMeta (⟨"a", none, some "5", 2⟩ : Obj))
      = some (⟨"a", none, none, 1⟩ : Obj) :=
  ⟨by decide,
    (added_duplicate_no_overwrite objMeta (stA "0")
      (⟨"a", none, some "5", 2⟩ : Obj) (⟨"a", none, none, 1⟩ : Obj) (by decide)).2.1⟩

/-- C4: applying a `Modified` event for a key absent from the cache leaves
the data map unchanged (no insertion), and the event applies successfully. -/
theorem modified_absent_no_resurrection {K : Type} (m : Meta K) (st : State K) (o : K)
    (h : Cache.get? st.data (ObjectId.key_for m o) = none) :
    (applyEvent m st (Except.ok (WatchEvent.Modified o))).1.data = st.data
    ∧ (applyEvent m st (Except.ok (WatchEvent.Modified o))).2 = none := by
  have hd : (applyVersion m st (Except.ok (WatchEvent.Modified o))).data = st.data :=
    applyVersion_data m st _
  refine ⟨?_, rfl⟩
  simp [applyEvent, Cache.and_modify, hd, h]

/-- C4 witness: a `Modified` event for `b` against a cache holding only `a`
leaves the data map unchanged. -/
theorem modified_absent_witness :
    Cache.get? (stA "0").data (ObjectId.key_for objMeta (⟨"b", none, some "7", 9⟩ : Obj)) = none
    ∧ (applyEvent objMeta (stA "0")
        (Except.ok (WatchEvent.Modified (⟨"b", none, some "7", 9⟩ : Obj)))).1.data
      = (stA "0").data :=
  ⟨by decide,
    (modified_absent_no_resurrection objMeta (stA "0")
      (⟨"b", none, some "7", 9⟩ : Obj) (by decide)).1⟩

/-- C8: applying a `Deleted` event for a key absent from the cache leaves the
data map unchanged, succeeds, and still adopts the event's version marker. -/
theorem deleted_absent_noop {K : Type} (m : Meta K) (st : State K) (o : K)
    (h : Cache.get? st.data (ObjectId.key_for m o) = none) :
    (applyEvent m st (Except.ok (WatchEvent.Deleted o))).1.data = st.data
    ∧ (applyEvent m st (Except.ok (WatchEvent.Deleted o))).2 = none
    ∧ (applyEvent m st (Except.ok (WatchEvent.Deleted o))).1.version
        = (m.resource_ver o).getD st.version := by
  have hd : (applyVersion m st (Except.ok (WatchEvent.Deleted o))).data = st.data :=
    applyVersion_data m st _
  refine ⟨?_, rfl, applyEvent_version m st _⟩
  have hr := Cache.remove_absent st.data (ObjectId.key_for m o) h
  simp [applyEvent, hd, hr]

/-- C8 witness: deleting absent `b` (marker `"9"`) from a cache holding `a`
at version `"5"`: data unchanged, no error, version advances to `"9"`. -/
theorem deleted_absent_witness :
    Cache.get? (stA "5").data (ObjectId.key_for objMeta (⟨"b", none, some "9", 0⟩ : Obj)) = none
    ∧ (applyEvent objMeta (stA "5")
        (Except.ok (WatchEvent.Deleted (⟨"b", none, some "9", 0⟩ : Obj)))).1.data
      = (stA "5").data :=
  ⟨by decide,
    (deleted_absent_noop objMeta (stA "5")
      (⟨"b", none, some "9", 0⟩ : Obj) (by decide)).1⟩

/-- C9: `get_within` always queries an identity with a present namespace, so
in a state holding only cluster-scoped entries (namespace `none`) it returns
`none` for every argument pair, while `get` on a reflector configured with
namespace `none` queries exactly the namespace-free identity. -/
theorem get_within_requires_namespace {K : Type} (st : State K) (name ns : String)
    (h : ∀ p ∈ st.data, (Prod.fst p).«namespace» = none) :
    Reflector.get_within st name ns = none
    ∧ Reflector.get none st name
        = Cache.get? st.data { name := name, «namespace» := none }
    ∧ Reflector.get_within st name ns
        = Cache.get? st.data { name := name, «namespace» := some ns } := by
  refine ⟨?_, rfl, rfl⟩
  exact Cache.get?_none_of_namespaces_none st.data _ h (by simp)

/-- C9 witness: a state holding the cluster-scoped object `a`; `get_within`
cannot reach it, `get` with configured namespace `none` can. -/
theorem get_within_witness :
    (∀ p ∈ (stA "0").data, (Prod.fst p).«namespace» = none)
    ∧ Reflector.get_within (stA "0") "a" "x" = none
    ∧ Reflector.get none (stA "0") "a" = some (⟨"a", none, none, 1⟩ : Obj) :=
  ⟨by decide,
    (get_within_requires_namespace (stA "0") "a" "x" (by decide)).1,
    by decide⟩

theorem cmpOption_compare_eq_iff (x y : Option String) :
    cmpOption compare x y = Ordering.eq ↔ x = y := by
  cases x <;> cases y <;> simp [cmpOption]
  exact Batteries.BEqCmp.cmp_iff_eq

/-- C5 counterexample: the derived order compares `name` first, so an
identity carrying a namespace can fall on either side of an identity without
one, depending on the names; and the code's order disagrees with the
spec-claimed namespace-presence-first order at a concrete pair. -/
theorem objectId_order_counterexample :
    ObjectId.cmp ⟨"a", some "x"⟩ ⟨"b", none⟩ = Ordering.lt
    ∧ ObjectId.cmp ⟨"c", some "x"⟩ ⟨"b", none⟩ = Ordering.gt
    ∧ specClaimedCmp ⟨"a", some "x"⟩ ⟨"b", none⟩ = Ordering.gt :=
  ⟨by decide, by decide, by decide⟩

/-- C5 amended: the total order used by the cache compares `name` first and
the namespace second (absent namespace before present, present namespaces by
value); it is lawful in the sense that it reports `eq` exactly on equal
identities. -/
theorem objectId_order_amended :
    (∀ a b : ObjectId, ObjectId.cmp a b = Ordering.eq ↔ a = b)
    ∧ (∀ a b : ObjectId, compare a.name b.name ≠ Ordering.eq →
        ObjectId.cmp a b = compare a.name b.name)
    ∧ (∀ a b : ObjectId, a.name = b.name → a.«namespace» = none →
        b.«namespace» ≠ none → ObjectId.cmp a b = Ordering.lt)
    ∧ (∀ a b : ObjectId, a.name = b.name → ∀ x y, a.«namespace» = some x →
        b.«namespace» = some y → ObjectId.cmp a b = compare x y) := by
  refine ⟨?_, ?_, ?_, ?_⟩
  · intro a b
    rw [ObjectId.cmp, Ordering.then_eq_eq,
      show (compare a.name b.name = Ordering.eq ↔ a.name = b.name) from
        Batteries.BEqCmp.cmp_iff_eq,
      cmpOption_compare_eq_iff]
    cases a; cases b
    simp [ObjectId.mk.injEq]
  · intro a b h
    rw [ObjectId.cmp]
    cases hc : compare a.name b.name
    · rfl
    · exact absurd hc h
    · rfl
  · intro a b hn ha hb
    cases hb' : b.«namespace» with
    | none => exact absurd hb' hb
    | some y =>
      have hc : compare a.name b.name = Ordering.eq := Batteries.BEqCmp.cmp_iff_eq.mpr hn
      rw [ObjectId.cmp, hc, ha, hb']
      rfl
  · intro a b hn x y ha hb
    have hc : compare a.name b.name = Ordering.eq := Batteries.BEqCmp.cmp_iff_eq.mpr hn
    rw [ObjectId.cmp, hc, ha, hb]
    rfl

/-- C5 witness: two identities sharing the name `a`; the one without a
namespace sorts strictly before the one inside namespace `x`. -/
theorem objectId_order_witness :
    (ObjectId.mk "a" none).name = (ObjectId.mk "a" (some "x")).name
    ∧ ObjectId.cmp ⟨"a", none⟩ ⟨"a", some "x"⟩ = Ordering.lt :=
  ⟨rfl, objectId_order_amended.2.2.1 ⟨"a", none⟩ ⟨"a", some "x"⟩ rfl rfl
    (fun h => Option.noConfusion h)⟩

theorem get?_foldl_insert {K : Type} (m : Meta K) (k : ObjectId) (items : List K) :
    ∀ d : Cache K,
      Cache.get? (items.foldl (fun d i => Cache.insert d (ObjectId.key_for m i) i) d) k
        = (lastMatch m k items).or (Cache.get? d k) := by
  induction items with
  | nil => intro d; simp [lastMatch, Option.none_or]
  | cons i rest ih =>
    intro d
    rw [List.foldl_cons, ih, lastMatch, Option.or_assoc, Cache.get?_insert]
    by_cases hki : ObjectId.key_for m i = k <;> simp [hki, Option.none_or]

theorem Cache.get?_buildCache {K : Type} (m : Meta K) (items : List K) (k : ObjectId) :
    Cache.get? (buildCache m items) k = lastMatch m k items := by
  rw [buildCache, get?_foldl_insert]
  simp [Cache.get?]

theorem Cache.keys_insert {K : Type} (c : Cache K) (i : ObjectId) (v : K) :
    (Cache.insert c i v).map Prod.fst
      = if i ∈ c.map Prod.fst then c.map Prod.fst else c.map Prod.fst ++ [i] := by
  induction c with
  | nil => simp [Cache.insert]
  | cons p rest ih =>
    obtain ⟨k, w⟩ := p
    by_cases hk : k = i
    · subst hk
      simp [Cache.insert]
    · have hik : ¬ i = k := fun h => hk h.symm
      by_cases hm : i ∈ rest.map Prod.fst <;>
        simp [Cache.insert, hk, ih, hm, hik]

theorem nodup_append_singleton {α : Type} (l : List α) (a : α) (h1 : l.Nodup)
    (h2 : a ∉ l) : (l ++ [a]).Nodup := by
  simp [List.nodup_append]
  exact ⟨h1, fun hm => (h2 hm).elim⟩

theorem Cache.nodup_keys_insert {K : Type} (c : Cache K) (i : ObjectId) (v : K)
    (h : (c.map Prod.fst).Nodup) : ((Cache.insert c i v).map Prod.fst).Nodup := by
  rw [Cache.keys_insert]
  by_cases hm : i ∈ c.map Prod.fst
  · simpa [hm]
  · rw [if_neg hm]
    exact nodup_append_singleton _ _ h hm

theorem buildCache_nodup_keys {K : Type} (m : Meta K) (items : List K) :
    ((buildCache m items).map Prod.fst).Nodup := by
  suffices h : ∀ d : Cache K, (d.map Prod.fst).Nodup →
      ((items.foldl (fun d i => Cache.insert d (ObjectId.key_for m i) i) d).map
        Prod.fst).Nodup by
    exact h [] (by simp)
  induction items with
  | nil => intro d hd; simpa
  | cons i rest ih =>
    intro d hd
    rw [List.foldl_cons]
    exact ih _ (Cache.nodup_keys_insert _ _ _ hd)

theorem Cache.mem_keys_of_get? {K : Type} (c : Cache K) (i : ObjectId) (v : K)
    (h : Cache.get? c i = some v) : i ∈ c.map Prod.fst := by
  induction c with
  | nil => simp [Cache.get?] at h
  | cons p rest ih =>
    obtain ⟨k, w⟩ := p
    by_cases hk : k = i
    · simp [hk]
    · simp only [Cache.get?, hk, if_false] at h
      exact List.mem_cons_of_mem _ (ih h)

/-- C6 counterexample: a reset whose snapshot carries no resource version
succeeds yet stores a version different from the zero marker `"0"` (it
stores the `String` default, the empty string). -/
theorem reset_missing_version_counterexample :
    (reset objMeta (State.default : State Obj)
        (Except.ok { metadata := { resource_version := none }, items := [] })).2 = none
    ∧ (reset objMeta (State.default : State Obj)
        (Except.ok { metadata := { resource_version := none }, items := [] })).1.version
      ≠ "0" :=
  ⟨rfl, by decide⟩

/-- C6 amended: a successful reset whose snapshot carries no resource version
marker stores the empty string `""` — the `String` default, which differs from
the `"0"` marker used at construction — and the rebuilt data map is exactly
the snapshot's items indexed by their identity (later duplicates winning). -/
theorem reset_missing_version_amended {K : Type} (m : Meta K) (st : State K)
    (res : ObjectList K) (h : res.metadata.resource_version = none) :
    reset m st (Except.ok res)
      = ({ data := buildCache m res.items, version := "" }, none)
    ∧ (State.default : State K).version = "0"
    ∧ (∀ k, Cache.get? (reset m st (Except.ok res)).1.data k = lastMatch m k res.items) := by
  have h1 : reset m st (Except.ok res)
      = ({ data := buildCache m res.items, version := "" }, none) := by
    simp [reset, get_full_resource_entries, h]
  refine ⟨h1, rfl, ?_⟩
  intro k
  rw [h1]
  exact Cache.get?_buildCache m res.items k

/-- C6 witness: a snapshot of one object and no resource version; reset
succeeds and stores version `""`. -/
theorem reset_missing_version_witness :
    ({ metadata := { resource_version := none },
        items := [(⟨"a", some "x", none, 1⟩ : Obj)] } : ObjectList Obj).metadata.resource_version
      = none
    ∧ reset objMeta (stA "7")
        (Except.ok { metadata := { resource_version := none },
                     items := [(⟨"a", some "x", none, 1⟩ : Obj)] })
      = ({ data := buildCache objMeta [(⟨"a", some "x", none, 1⟩ : Obj)], version := "" },
          none) :=
  ⟨rfl,
    (reset_missing_version_amended objMeta (stA "7")
      { metadata := { resource_version := none },
        items := [(⟨"a", some "x", none, 1⟩ : Obj)] } rfl).1⟩

/-- C10: when the snapshot holds several items with the same identity, the
cache built by reset binds that identity exactly once, to the item appearing
last in snapshot order. -/
theorem reset_duplicate_keys_last_wins {K : Type} (m : Meta K) (items : List K)
    (k : ObjectId) (w : K) (h : lastMatch m k items = some w) :
    Cache.get? (buildCache m items) k = some w
    ∧ List.count k ((buildCache m items).map Prod.fst) = 1 := by
  have hg : Cache.get? (buildCache m items) k = some w := by
    rw [Cache.get?_buildCache, h]
  exact ⟨hg, List.count_eq_one_of_mem (buildCache_nodup_keys m items)
    (Cache.mem_keys_of_get? _ _ _ hg)⟩

/-- C10 witness: a snapshot listing identity `a [x]` twice (payloads 1 and 3)
and `b [x]` once; the built cache binds `a [x]` once, to payload 3. -/
theorem reset_duplicate_witness :
    lastMatch objMeta ⟨"a", some "x"⟩
        [(⟨"a", some "x", some "1", 1⟩ : Obj), ⟨"b", some "x", some "2", 2⟩,
          ⟨"a", some "x", some "3", 3⟩]
      = some ⟨"a", some "x", some "3", 3⟩
    ∧ Cache.get?
        (buildCache objMeta
          [(⟨"a", some "x", some "1", 1⟩ : Obj), ⟨"b", some "x", some "2", 2⟩,
            ⟨"a", some "x", some "3", 3⟩])
        ⟨"a", some "x"⟩
      = some ⟨"a", some "x", some "3", 3⟩ :=
  ⟨by decide,
    (reset_duplicate_keys_last_wins objMeta
      [(⟨"a", some "x", some "1", 1⟩ : Obj), ⟨"b", some "x", some "2", 2⟩,
        ⟨"a", some "x", some "3", 3⟩]
      ⟨"a", some "x"⟩ ⟨"a", some "x", some "3", 3⟩ (by decide)).1⟩

theorem pollEvents_cons_ok {K : Type} (m : Meta K) (st st1 : State K)
    (ev : Except Error (WatchEvent K)) (rest : List (Except Error (WatchEvent K)))
    (h : applyEvent m st ev = (st1, none)) :
    pollEvents m st (ev :: rest) = pollEvents m st1 rest := by
  simp [pollEvents, h]

theorem pollEvents_cons_err {K : Type} (m : Meta K) (st st1 : State K)
    (ev : Except Error (WatchEvent K)) (rest : List (Except Error (WatchEvent K)))
    (e : Error) (h : applyEvent m st ev = (st1, some e)) :
    pollEvents m st (ev :: rest) = (st1, some e) := by
  simp [pollEvents, h]

theorem pollTrace_cons_ok {K : Type} (m : Meta K) (st st1 : State K)
    (ev : Except Error (WatchEvent K)) (rest : List (Except Error (WatchEvent K)))
    (h : applyEvent m st ev = (st1, none)) :
    pollTrace m st (ev :: rest) = st1.version :: pollTrace m st1 rest := by
  simp [pollTrace, h]

theorem applyEvent_of_eventError {K : Type} (m : Meta K) (st : State K)
    (ev : Except Error (WatchEvent K)) (e : Error) (h : eventError ev = some e) :
    applyEvent m st ev = (st, some e) := by
  cases ev with
  | error e' =>
    simp [eventError] at h
    subst h
    simp [applyEvent, applyVersion, eventVersion]
  | ok w =>
    cases w <;> simp [eventError] at h
    subst h
    simp [applyEvent, applyVersion, eventVersion]

/-- C2: if the watch batch is a successfully applied prefix followed by a
failing event (an explicit `Error` event or a transport error), the poll loop
returns that failure at once: the final state is exactly the state after the
prefix (all earlier mutations and version updates retained, no rollback) and
nothing after the failing event is applied. -/
theorem poll_error_aborts_and_retains_prefix {K : Type} (m : Meta K) (st : State K)
    (pre post : List (Except Error (WatchEvent K))) (bad : Except Error (WatchEvent K))
    (e : Error) (hpre : (pollEvents m st pre).2 = none) (hbad : eventError bad = some e) :
    pollEvents m st (pre ++ bad :: post) = ((pollEvents m st pre).1, some e) := by
  induction pre generalizing st with
  | nil =>
    simp only [List.nil_append]
    rw [pollEvents_cons_err m st st bad post e (applyEvent_of_eventError m st bad e hbad)]
    rfl
  | cons ev pre' ih =>
    rcases h : applyEvent m st ev with ⟨st1, err⟩
    cases err with
    | some e' =>
      rw [pollEvents_cons_err m st st1 ev pre' e' h] at hpre
      simp at hpre
    | none =>
      rw [pollEvents_cons_ok m st st1 ev pre' h] at hpre
      rw [List.cons_append, pollEvents_cons_ok m st st1 ev (pre' ++ bad :: post) h,
        ih st1 hpre, pollEvents_cons_ok m st st1 ev pre' h]

/-- C2 witness: the spec scenario — `Added(c, version "13")` then an error
event: the poll returns the `Api` failure and the state after the prefix
(where `c` is present at version `"13"`). -/
theorem poll_error_witness :
    (pollEvents objMeta (State.default : State Obj)
        [Except.ok (WatchEvent.Added (⟨"c", none, some "13", 1⟩ : Obj))]).2 = none
    ∧ eventError (Except.ok (WatchEvent.Error ⟨"boom"⟩) : Except Error (WatchEvent Obj))
        = some (Error.Api ⟨"boom"⟩)
    ∧ pollEvents objMeta (State.default : State Obj)
        ([Except.ok (WatchEvent.Added (⟨"c", none, some "13", 1⟩ : Obj))]
          ++ Except.ok (WatchEvent.Error ⟨"boom"⟩) :: [])
      = ((pollEvents objMeta (State.default : State Obj)
            [Except.ok (WatchEvent.Added (⟨"c", none, some "13", 1⟩ : Obj))]).1,
         some (Error.Api ⟨"boom"⟩))
    ∧ (pollEvents objMeta (State.default : State Obj)
        [Except.ok (WatchEvent.Added (⟨"c", none, some "13", 1⟩ : Obj))]).1.version = "13" :=
  ⟨by decide, rfl,
    poll_error_aborts_and_retains_prefix objMeta (State.default : State Obj)
      [Except.ok (WatchEvent.Added ⟨"c", none, some "13", 1⟩)] []
      (Except.ok (WatchEvent.Error ⟨"boom"⟩)) (Error.Api ⟨"boom"⟩) (by decide) rfl,
    by decide⟩

theorem getLast?_getD_cons {α : Type} (l : List α) :
    ∀ v d : α, ((v :: l).getLast?).getD d = (l.getLast?).getD v := by
  induction l with
  | nil => intro v d; rfl
  | cons x xs ih =>
    intro v d
    rw [List.getLast?_cons_cons, ih x d, ih x v]

/-- C1: over a fully successful poll run, the stored version ends at the
marker of the last event carrying one (or stays put if none does); and for
any reflexive order `R` such that the incoming markers are non-decreasing
from the starting version, the whole trace of stored versions is
non-decreasing — the version never regresses within the run. -/
theorem poll_version_eq_last_marker_and_monotone {K : Type} (m : Meta K)
    (R : String → String → Prop) (hrefl : ∀ s, R s s) (st : State K)
    (events : List (Except Error (WatchEvent K)))
    (hok : (pollEvents m st events).2 = none)
    (hchain : List.Chain' R (st.version :: events.filterMap (eventVersion m))) :
    (pollEvents m st events).1.version
        = ((events.filterMap (eventVersion m)).getLast?).getD st.version
    ∧ List.Chain' R (st.version :: pollTrace m st events) := by
  induction events generalizing st with
  | nil =>
    refine ⟨rfl, ?_⟩
    simp [pollTrace]
  | cons ev rest ih =>
    rcases h : applyEvent m st ev with ⟨st1, err⟩
    cases err with
    | some e =>
      rw [pollEvents_cons_err m st st1 ev rest e h] at hok
      simp at hok
    | none =>
      have hv : st1.version = (eventVersion m ev).getD st.version := by
        have hva := applyEvent_version m st ev
        rw [h] at hva
        exact hva
      rw [pollEvents_cons_ok m st st1 ev rest h] at hok ⊢
      rw [pollTrace_cons_ok m st st1 ev rest h]
      cases hev : eventVersion m ev with
      | none =>
        have hv' : st1.version = st.version := by rw [hv, hev]; rfl
        simp only [List.filterMap_cons, hev] at hchain ⊢
        have hchain1 : List.Chain' R (st1.version :: rest.filterMap (eventVersion m)) := by
          rw [hv']; exact hchain
        obtain ⟨ih1, ih2⟩ := ih st1 hok hchain1
        refine ⟨?_, ?_⟩
        · rw [ih1, hv']
        · exact List.chain'_cons.mpr ⟨by rw [hv']; exact hrefl st.version, ih2⟩
      | some v =>
        have hv' : st1.version = v := by rw [hv, hev]; rfl
        simp only [List.filterMap_cons, hev] at hchain ⊢
        obtain ⟨hR, hchain'⟩ := List.chain'_cons.mp hchain
        have hchain1 : List.Chain' R (st1.version :: rest.filterMap (eventVersion m)) := by
          rw [hv']; exact hchain'
        obtain ⟨ih1, ih2⟩ := ih st1 hok hchain1
        refine ⟨?_, ?_⟩
        · rw [getLast?_getD_cons, ih1, hv']
        · exact List.chain'_cons.mpr ⟨by rw [hv']; exact hR, ih2⟩

/-- C1 witness: from the initial state, a successful run of one `Added`
event carrying marker `"13"`: the stored version ends at `"13"` and the
version trace is non-decreasing for the order `compare · · ≠ gt`. -/
theorem poll_version_witness :
    (pollEvents objMeta (State.default : State Obj)
        [Except.ok (WatchEvent.Added (⟨"c", none, some "13", 1⟩ : Obj))]).2 = none
    ∧ List.Chain' (fun a b => compare a b ≠ Ordering.gt)
        ((State.default : State Obj).version
          :: [Except.ok (WatchEvent.Added (⟨"c", none, some "13", 1⟩ : Obj))].filterMap
              (eventVersion objMeta))
    ∧ ((pollEvents objMeta (State.default : State Obj)
          [Except.ok (WatchEvent.Added (⟨"c", none, some "13", 1⟩ : Obj))]).1.version
        = (([Except.ok (WatchEvent.Added (⟨"c", none, some "13", 1⟩ : Obj))].filterMap
            (eventVersion objMeta)).getLast?).getD (State.default : State Obj).version
      ∧ List.Chain' (fun a b => compare a b ≠ Ordering.gt)
          ((State.default : State Obj).version
            :: pollTrace objMeta (State.default : State Obj)
                [Except.ok (WatchEvent.Added (⟨"c", none, some "13", 1⟩ : Obj))])) :=
  ⟨by decide,
    show List.Chain' (fun a b => compare a b ≠ Ordering.gt) ["0", "13"] from
      List.chain'_cons.mpr ⟨by decide, List.chain'_singleton _⟩,
    poll_version_eq_last_marker_and_monotone objMeta
      (fun a b => compare a b ≠ Ordering.gt)
      (fun s => by simp [Batteries.OrientedCmp.cmp_refl]) (State.default : State Obj)
      [Except.ok (WatchEvent.Added ⟨"c", none, some "13", 1⟩)] (by decide)
      (show List.Chain' (fun a b => compare a b ≠ Ordering.gt) ["0", "13"] from
        List.chain'_cons.mpr ⟨by decide, List.chain'_singleton _⟩)⟩
